import Mathlib

/-!
Verification of the buddy memory allocator in `src/buddy_memory.h`
(`class BuddyMemoryManager`).

The C++ class is embedded shallowly:

* `std::vector<std::vector<Block>>` becomes `List (List Block)`;
* `std::unordered_map<void*, size_t>` becomes an association list with
  unique keys (`operator[]` is insert-or-assign, `erase` removes the entry);
* a `void*` handle is represented by its byte offset from the arena base
  (`nullptr` is `Option.none`);
* `size_t` values are `Nat` (the program never approaches 2^64, so no
  wrap-around modelling is needed);
* the distinct early-return paths of `allocate`/`deallocate` (which the C++
  code distinguishes by the message printed to `stderr`) are reified as
  result enums, so that "fails with OutOfMemory" vs "fails with
  RequestTooLarge" vs the silent `size == 0` / `ptr == nullptr` returns are
  distinguishable in the model.

One place needs care: `allocate` obtains `Block* block` pointing into
`freeLists[sizeClass]`, then erases an element from that same vector, and
only afterwards reads `block->offset` and `block->size`.  `vector::erase`
shifts the elements after the erased position one slot to the left and
destroys the last slot (for this trivially-copyable element type the last
slot's bytes keep their previous value).  The embedding reproduces exactly
this element-shift semantics: after erasing index `j` from a list of length
`n`, reading slot `i` yields the post-erase element at `i` when `i < n - 1`,
and the pre-erase last element when `i = n - 1`.
-/

namespace BuddyMemoryManagerModel

/-- One iteration step of the `while (value < n) { value <<= 1; result++; }`
loop of `log2Ceil` in `src/buddy_memory.h`; `fuel` bounds the number of
iterations (the loop needs at most `n` of them, see `log2CeilGo_eq`). -/
def log2CeilGo (n : Nat) : Nat → Nat → Nat → Nat
  | 0, _, result => result
  | fuel + 1, value, result =>
    if value < n then log2CeilGo n fuel (value * 2) (result + 1) else result

/-- `log2Ceil` from `src/buddy_memory.h`: smallest `e` with `2^e ≥ n`. -/
def log2Ceil (n : Nat) : Nat := log2CeilGo n n 1 0

/-- One iteration step of the `while (result < n) { result <<= 1; }` loop of
`roundUpToNextPowerOf2` in `src/buddy_memory.h`. -/
def roundGo (n : Nat) : Nat → Nat → Nat
  | 0, result => result
  | fuel + 1, result => if result < n then roundGo n fuel (result * 2) else result

/-- `roundUpToNextPowerOf2` from `src/buddy_memory.h`: smallest power of two
`≥ n` (yields `1` for `n = 0`). -/
def roundUpToNextPowerOf2 (n : Nat) : Nat := roundGo n n 1

theorem log2CeilGo_eq (n : Nat) : ∀ fuel r, n ≤ 2 ^ (r + fuel) →
    log2CeilGo n fuel (2 ^ r) r = max r (Nat.clog 2 n) := by
  intro fuel
  induction fuel with
  | zero =>
    intro r h
    have hc : Nat.clog 2 n ≤ r := (Nat.le_pow_iff_clog_le (by norm_num)).1 (by simpa using h)
    simp [log2CeilGo, Nat.max_eq_left hc]
  | succ fuel ih =>
    intro r h
    by_cases hlt : 2 ^ r < n
    · have hr : Nat.clog 2 n > r := by
        by_contra hle
        exact absurd ((Nat.le_pow_iff_clog_le (by norm_num)).2 (Nat.le_of_not_lt hle))
          (Nat.not_le_of_lt hlt)
      have h2 : (2 : Nat) ^ r * 2 = 2 ^ (r + 1) := by ring
      have hn : n ≤ 2 ^ (r + 1 + fuel) := by
        have : r + 1 + fuel = r + (fuel + 1) := by omega
        rw [this]; exact h
      have := ih (r + 1) hn
      rw [log2CeilGo, if_pos hlt, h2, this]
      omega
    · have hc : Nat.clog 2 n ≤ r :=
        (Nat.le_pow_iff_clog_le (by norm_num)).1 (Nat.le_of_not_lt hlt)
      simp [log2CeilGo, hlt, Nat.max_eq_left hc]

theorem roundGo_eq (n : Nat) : ∀ fuel r, n ≤ 2 ^ (r + fuel) →
    roundGo n fuel (2 ^ r) = 2 ^ max r (Nat.clog 2 n) := by
  intro fuel
  induction fuel with
  | zero =>
    intro r h
    have hc : Nat.clog 2 n ≤ r := (Nat.le_pow_iff_clog_le (by norm_num)).1 (by simpa using h)
    simp [roundGo, Nat.max_eq_left hc]
  | succ fuel ih =>
    intro r h
    by_cases hlt : 2 ^ r < n
    · have hr : Nat.clog 2 n > r := by
        by_contra hle
        exact absurd ((Nat.le_pow_iff_clog_le (by norm_num)).2 (Nat.le_of_not_lt hle))
          (Nat.not_le_of_lt hlt)
      have h2 : (2 : Nat) ^ r * 2 = 2 ^ (r + 1) := by ring
      have hn : n ≤ 2 ^ (r + 1 + fuel) := by
        have : r + 1 + fuel = r + (fuel + 1) := by omega
        rw [this]; exact h
      rw [roundGo, if_pos hlt, h2, ih (r + 1) hn]
      congr 1
      omega
    · have hc : Nat.clog 2 n ≤ r :=
        (Nat.le_pow_iff_clog_le (by norm_num)).1 (Nat.le_of_not_lt hlt)
      simp [roundGo, hlt, Nat.max_eq_left hc]

theorem log2Ceil_eq_clog (n : Nat) : log2Ceil n = Nat.clog 2 n := by
  have h : n ≤ 2 ^ (0 + n) := by
    simpa using Nat.le_of_lt (Nat.lt_two_pow n)
  have := log2CeilGo_eq n n 0 h
  simpa [log2Ceil] using this

theorem roundUpToNextPowerOf2_eq (n : Nat) :
    roundUpToNextPowerOf2 n = 2 ^ Nat.clog 2 n := by
  have h : n ≤ 2 ^ (0 + n) := by
    simpa using Nat.le_of_lt (Nat.lt_two_pow n)
  have := roundGo_eq n n 0 h
  simpa [roundUpToNextPowerOf2] using this

/-- `struct Block` from `src/buddy_memory.h`. -/
structure Block where
  offset : Nat
  size : Nat
  free : Bool
deriving DecidableEq, Repr

/-- Default used when reading an out-of-range slot (never reached on the
inputs produced by `findBlock`). -/
def dummyBlock : Block := ⟨0, 0, false⟩

/-- The mutable state of a `BuddyMemoryManager`: everything except the raw
byte arena, which carries no information the claims are about. -/
structure BuddyState where
  totalSize : Nat
  minBlockSize : Nat
  freeLists : List (List Block)
  allocatedBlocks : List (Nat × Nat)
deriving DecidableEq, Repr

/-- `unordered_map::find`. -/
def mapFind (m : List (Nat × Nat)) (k : Nat) : Option Nat :=
  (m.find? (fun p => p.1 = k)).map (·.2)

/-- `unordered_map::operator[] = v` (insert-or-assign). -/
def mapInsert (m : List (Nat × Nat)) (k v : Nat) : List (Nat × Nat) :=
  if (m.find? (fun p => p.1 = k)).isSome then
    m.map (fun p => if p.1 = k then (k, v) else p)
  else
    m ++ [(k, v)]

/-- `unordered_map::erase` of the entry found for `k`. -/
def mapErase (m : List (Nat × Nat)) (k : Nat) : List (Nat × Nat) :=
  m.eraseP (fun p => p.1 = k)

/-- The erase loop in `allocate` and in the split branch of `findBlock`:
walk the list and erase the first block whose `offset` matches. -/
def eraseFirstOffset (l : List Block) (off : Nat) : List Block :=
  match l with
  | [] => []
  | b :: rest => if b.offset = off then rest else b :: eraseFirstOffset rest off

/-- `getSizeClass` from `src/buddy_memory.h`. -/
def getSizeClass (minBlockSize sz : Nat) : Nat :=
  log2Ceil sz - log2Ceil minBlockSize

/-- The size-rounding prefix of `allocate`: round up to a multiple of
`minBlockSize`, then to the next power of two, then take the max with
`minBlockSize`. -/
def blockSizeFor (minBlockSize sz : Nat) : Nat :=
  max (roundUpToNextPowerOf2 (((sz + minBlockSize - 1) / minBlockSize) * minBlockSize))
    minBlockSize

/-- `findBlock` from `src/buddy_memory.h`.  The C++ function returns a
`Block*` into `freeLists[sizeClass]`; here it returns the corresponding
index (`0` for the non-split branch, `newList.length - 2` for the split
branch) together with the updated free lists.  `fuel` bounds the recursion
depth; callers pass `freeLists.length`, which always suffices because the
recursion stops at `sizeClass + 1 ≥ freeLists.length`. -/
def findBlock (fuel : Nat) (fl : List (List Block)) (sc : Nat) :
    Option Nat × List (List Block) :=
  match fuel with
  | 0 => (none, fl)
  | fuel + 1 =>
    if fl.length ≤ sc ∨ fl.getD sc [] = [] then
      if fl.length ≤ sc + 1 then (none, fl)
      else
        match findBlock fuel fl (sc + 1) with
        | (none, fl') => (none, fl')
        | (some i, fl') =>
          let largerList := fl'.getD (sc + 1) []
          let larger := largerList.getD i dummyBlock
          let halfSize := larger.size / 2
          let off := larger.offset
          let fl1 := fl'.set (sc + 1) (eraseFirstOffset largerList larger.offset)
          let newList := (fl1.getD sc []) ++
            [⟨off, halfSize, true⟩, ⟨off + halfSize, halfSize, true⟩]
          (some (newList.length - 2), fl1.set sc newList)
    else (some 0, fl)

/-- The four return paths of `allocate` (`ok` carries the offset of the
returned pointer from the arena base; the other three all return `nullptr`
in C++ and are told apart by the message printed, or its absence). -/
inductive AllocResult where
  | ok (ptr : Nat)
  | nullSize
  | tooLarge
  | outOfMemory
deriving DecidableEq, Repr

def AllocResult.isOk : AllocResult → Bool
  | .ok _ => true
  | _ => false

/-- The tail of `allocate` after `findBlock` returned the block at index
`i` of `freeLists[sizeClass]`, including the dangling-pointer read:
`block->free = false` is applied at index `i`, the erase loop removes the
first block with the matching offset (`vector::erase` shifts the following
elements left), and `block->offset` / `block->size` are then read from the
*post-erase* slot `i` — or, when slot `i` was the destroyed last slot, from
the stale bytes of the pre-erase last element. -/
def allocFinish (st : BuddyState) (sizeClass i : Nat) (fl' : List (List Block)) :
    AllocResult × BuddyState :=
  let list := fl'.getD sizeClass []
  let marked := list.set i { list.getD i dummyBlock with free := false }
  let target := (marked.getD i dummyBlock).offset
  let erased := eraseFirstOffset marked target
  let readBlock :=
    if i < erased.length then erased.getD i dummyBlock
    else marked.getLastD dummyBlock
  (.ok readBlock.offset,
    { st with
        freeLists := fl'.set sizeClass erased
        allocatedBlocks := mapInsert st.allocatedBlocks readBlock.offset readBlock.size })

/-- `allocate` from `src/buddy_memory.h`. -/
def allocate (st : BuddyState) (size : Nat) : AllocResult × BuddyState :=
  if size = 0 then (.nullSize, st)
  else
    let blockSize := blockSizeFor st.minBlockSize size
    let sizeClass := getSizeClass st.minBlockSize blockSize
    if st.freeLists.length ≤ sizeClass then (.tooLarge, st)
    else
      let res := findBlock st.freeLists.length st.freeLists sizeClass
      match res.1 with
      | none => (.outOfMemory, { st with freeLists := res.2 })
      | some i => allocFinish st sizeClass i res.2

/-- The condition of `mergeBuddies` on a pair `(b1, b2)` with `b1` earlier
in the list: both free, offsets XOR to the class block size, and *`b1`'s*
offset has the block-size bit clear. -/
def pairCond (blockSize : Nat) (b1 b2 : Block) : Bool :=
  b1.free && b2.free && (b1.offset ^^^ b2.offset == blockSize) &&
    (b1.offset &&& blockSize == 0)

/-- The double loop of `mergeBuddies` over one class's list: the first pair
`(j, k)` with `j < k` (outer `j` ascending, inner `k` ascending) satisfying
`pairCond`. -/
def findPairGo (blockSize : Nat) : List Block → Option (Nat × Nat)
  | [] => none
  | b1 :: rest =>
    match rest.findIdx? (fun b2 => pairCond blockSize b1 b2) with
    | some d => some (0, d + 1)
    | none => (findPairGo blockSize rest).map (fun p => (p.1 + 1, p.2 + 1))

/-- One class iteration of `mergeBuddies`: merge the first buddy pair found
at class `i`, if any (erase index `k` then index `j`; push the merged block
onto class `i + 1`).  The C++ `if (j > k)` branch is dead code because `k`
always starts at `j + 1`. -/
def mergeClass (minBlockSize : Nat) (fl : List (List Block)) (i : Nat) :
    Option (List (List Block)) :=
  let list := fl.getD i []
  let blockSize := minBlockSize <<< i
  match findPairGo blockSize list with
  | none => none
  | some (j, k) =>
    let b1 := list.getD j dummyBlock
    let b2 := list.getD k dummyBlock
    let mergedOffset := min b1.offset b2.offset
    let list' := (list.eraseIdx k).eraseIdx j
    let fl' := fl.set i list'
    some (fl'.set (i + 1) ((fl'.getD (i + 1) []) ++ [⟨mergedOffset, blockSize * 2, true⟩]))

def mergeBuddiesGo (minBlockSize : Nat) (fl : List (List Block)) :
    List Nat → Bool × List (List Block)
  | [] => (false, fl)
  | i :: rest =>
    match mergeClass minBlockSize fl i with
    | some fl' => (true, fl')
    | none => mergeBuddiesGo minBlockSize fl rest

/-- `mergeBuddies` from `src/buddy_memory.h`: scan classes `0` to
`freeLists.size() - 2`, merge at most the first buddy pair found, report
whether a merge happened. -/
def mergeBuddies (minBlockSize : Nat) (fl : List (List Block)) :
    Bool × List (List Block) :=
  mergeBuddiesGo minBlockSize fl (List.range (fl.length - 1))

/-- The `while (mergeBuddies()) {}` loop in `deallocate`.  Each successful
merge removes two blocks and adds one, so the total block count strictly
decreases; `deallocate` passes one more than the current block count as
fuel, which therefore always suffices. -/
def mergeLoop (minBlockSize : Nat) : Nat → List (List Block) → List (List Block)
  | 0, fl => fl
  | fuel + 1, fl =>
    match mergeBuddies minBlockSize fl with
    | (false, fl') => fl'
    | (true, fl') => mergeLoop minBlockSize fuel fl'

def countBlocks (fl : List (List Block)) : Nat := (fl.map List.length).sum

/-- The three return paths of `deallocate`: the silent `nullptr` early
return, the logged invalid-pointer return, and normal completion. -/
inductive DeallocResult where
  | ok
  | nullPtr
  | invalid
deriving DecidableEq, Repr

/-- `deallocate` from `src/buddy_memory.h`. -/
def deallocate (st : BuddyState) (ptr : Option Nat) : DeallocResult × BuddyState :=
  match ptr with
  | none => (.nullPtr, st)
  | some p =>
    match mapFind st.allocatedBlocks p with
    | none => (.invalid, st)
    | some sz =>
      let offset := p
      let m := mapErase st.allocatedBlocks p
      let sizeClass := getSizeClass st.minBlockSize sz
      let fl := st.freeLists.set sizeClass
        ((st.freeLists.getD sizeClass []) ++ [⟨offset, sz, true⟩])
      (.ok, { st with
                allocatedBlocks := m
                freeLists := mergeLoop st.minBlockSize (countBlocks fl + 1) fl })

/-- The constructor `BuddyMemoryManager(size, minSize)`: round both sizes to
powers of two, build `numClasses` empty free lists, seed the top class with
the whole arena.  There is no parameter validation in the source. -/
def mkBuddy (size minSize : Nat) : BuddyState :=
  let totalSize := roundUpToNextPowerOf2 size
  let minBlockSize := roundUpToNextPowerOf2 minSize
  let numClasses := log2Ceil (totalSize / minBlockSize) + 1
  { totalSize := totalSize
    minBlockSize := minBlockSize
    freeLists := (List.replicate numClasses []).set (numClasses - 1) [⟨0, totalSize, true⟩]
    allocatedBlocks := [] }

/-- `isManaged` from `src/buddy_memory.h`. -/
def isManaged (st : BuddyState) (p : Nat) : Bool :=
  (mapFind st.allocatedBlocks p).isSome

/-- `getAllocatedSize` from `src/buddy_memory.h` (0 when not managed). -/
def getAllocatedSize (st : BuddyState) (p : Nat) : Nat :=
  (mapFind st.allocatedBlocks p).getD 0

/-- Sum of the sizes of all blocks in all free lists (the left summand of
the spec's conservation invariant). -/
def freeSum (fl : List (List Block)) : Nat :=
  (fl.map (fun l => (l.map Block.size).sum)).sum

/-- Sum of the sizes recorded in the allocation registry (the right summand
of the spec's conservation invariant). -/
def regSum (m : List (Nat × Nat)) : Nat := (m.map (·.2)).sum

/-! ### List helper lemmas -/

theorem getD_set_self {α : Type} (l : List α) (i : Nat) (x d : α) (h : i < l.length) :
    (l.set i x).getD i d = x := by
  simp [List.getD_eq_getElem?_getD, List.getElem?_set_self, h]

theorem getD_set_ne {α : Type} (l : List α) (i j : Nat) (x d : α) (h : i ≠ j) :
    (l.set i x).getD j d = l.getD j d := by
  simp [List.getD_eq_getElem?_getD, List.getElem?_set_ne h]

theorem getD_replicate {α : Type} (n k : Nat) (x d : α) :
    (List.replicate n x).getD k d = if k < n then x else d := by
  simp only [List.getD_eq_getElem?_getD, List.getElem?_replicate]
  split <;> rfl

theorem getD_mem {α : Type} : ∀ (l : List α) (i : Nat) (d : α), i < l.length → l.getD i d ∈ l := by
  intro l
  induction l with
  | nil => intro i d h; simp at h
  | cons a as ih =>
    intro i d h
    cases i with
    | zero => simp [List.getD]
    | succ n =>
      have := ih n d (by simpa using h)
      simp only [List.getD, List.get?_eq_getElem?, List.getElem?_cons_succ] at this ⊢
      right
      exact this

theorem getLastD_mem {α : Type} (l : List α) (d : α) (h : l ≠ []) : l.getLastD d ∈ l := by
  rw [List.getLastD_eq_getLast?, List.getLast?_eq_getLast l h]
  simp [List.getLast_mem]

theorem mem_of_mem_eraseFirstOffset (off : Nat) :
    ∀ (l : List Block) (b : Block), b ∈ eraseFirstOffset l off → b ∈ l := by
  intro l
  induction l with
  | nil => intro b h; simp [eraseFirstOffset] at h
  | cons a as ih =>
    intro b h
    rw [eraseFirstOffset] at h
    by_cases ha : a.offset = off
    · rw [if_pos ha] at h
      exact List.mem_cons_of_mem _ h
    · rw [if_neg ha] at h
      rcases List.mem_cons.1 h with h1 | h1
      · exact h1 ▸ List.mem_cons_self _ _
      · exact List.mem_cons_of_mem _ (ih b h1)

theorem length_set_eq {α : Type} (l : List α) (i : Nat) (x : α) :
    (l.set i x).length = l.length := List.length_set l ..

/-! ### `findBlock` does not mutate the free lists when it fails -/

theorem findBlock_none : ∀ (fuel : Nat) (fl : List (List Block)) (sc : Nat),
    (findBlock fuel fl sc).1 = none → (findBlock fuel fl sc).2 = fl := by
  intro fuel
  induction fuel with
  | zero => intro fl sc _; rfl
  | succ fuel ih =>
    intro fl sc h
    rw [findBlock] at h ⊢
    by_cases h1 : fl.length ≤ sc ∨ fl.getD sc [] = []
    · rw [if_pos h1] at h ⊢
      by_cases h2 : fl.length ≤ sc + 1
      · rw [if_pos h2]
      · rw [if_neg h2] at h ⊢
        rcases hfb : findBlock fuel fl (sc + 1) with ⟨o, fl'⟩
        cases o with
        | none =>
          have := ih fl (sc + 1) (by rw [hfb])
          rw [hfb] at this
          exact this
        | some i =>
          rw [hfb] at h
          simp at h
    · rw [if_neg h1] at h
      simp at h

/-- C9: whenever `allocate` fails (returns `nullptr` — for a zero-size
request, a request whose rounded size exceeds the largest class, or when no
suitable free block exists), the free lists and the allocation registry are
exactly as they were before the call; in particular a failing search
performs no block splits. -/
theorem allocate_failure_atomic (st : BuddyState) (sz : Nat)
    (h : (allocate st sz).1.isOk = false) : (allocate st sz).2 = st := by
  by_cases h0 : sz = 0
  · simp [allocate, h0]
  · rw [allocate, if_neg h0] at h ⊢
    simp only at h ⊢
    by_cases h1 : st.freeLists.length ≤
        getSizeClass st.minBlockSize (blockSizeFor st.minBlockSize sz)
    · rw [if_pos h1]
    · rw [if_neg h1] at h ⊢
      rcases ho : (findBlock st.freeLists.length st.freeLists
          (getSizeClass st.minBlockSize (blockSizeFor st.minBlockSize sz))).1 with _ | i
      · have hfl := findBlock_none st.freeLists.length st.freeLists
          (getSizeClass st.minBlockSize (blockSizeFor st.minBlockSize sz)) ho
        rw [hfl]
      · rw [ho] at h
        simp [allocFinish, AllocResult.isOk] at h

/-- C9 witness: a concrete failing call (request larger than the arena)
leaves the freshly constructed manager unchanged. -/
theorem allocate_failure_atomic_witness :
    (allocate (mkBuddy 1024 64) 2048).1.isOk = false ∧
      (allocate (mkBuddy 1024 64) 2048).2 = mkBuddy 1024 64 :=
  ⟨by decide, allocate_failure_atomic (mkBuddy 1024 64) 2048 (by decide)⟩

/-- C8: `deallocate` on any handle that is not in the allocation registry —
a null pointer, an already-released handle (double free), or an arbitrary
foreign pointer — leaves the whole state (registry and every free list)
unchanged and does not return through the success path, so every state
invariant that held before trivially still holds. -/
theorem deallocate_unknown_noop (st : BuddyState) (h : Option Nat)
    (hu : h.bind (mapFind st.allocatedBlocks) = none) :
    (deallocate st h).2 = st ∧ (deallocate st h).1 ≠ .ok := by
  cases h with
  | none =>
    refine ⟨rfl, ?_⟩
    show DeallocResult.nullPtr ≠ DeallocResult.ok
    decide
  | some p =>
    have hp : mapFind st.allocatedBlocks p = none := by simpa using hu
    have hd : deallocate st (some p) = (.invalid, st) := by
      rw [deallocate, hp]
    rw [hd]
    refine ⟨rfl, ?_⟩
    show DeallocResult.invalid ≠ DeallocResult.ok
    decide

/-- C8 witness: a genuine double free — after `allocate(512)` and a first
`deallocate`, the second `deallocate` of the same handle is a no-op. -/
theorem deallocate_unknown_noop_witness :
    ((deallocate (deallocate (allocate (mkBuddy 1024 64) 512).2 (some 512)).2
        (some 512)).2 = (deallocate (allocate (mkBuddy 1024 64) 512).2 (some 512)).2 ∧
      (deallocate (deallocate (allocate (mkBuddy 1024 64) 512).2 (some 512)).2
        (some 512)).1 ≠ .ok) :=
  deallocate_unknown_noop (deallocate (allocate (mkBuddy 1024 64) 512).2 (some 512)).2
    (some 512) (by decide)

/-- C10: `deallocate(nullptr)` takes the silent early-return path
(`DeallocResult.nullPtr`, which unlike `DeallocResult.invalid` models the
return *before* the "Invalid pointer for deallocation" log line) and leaves
the registry and all free lists unchanged. -/
theorem deallocate_null_silent_noop (st : BuddyState) :
    deallocate st none = (.nullPtr, st) ∧ DeallocResult.nullPtr ≠ DeallocResult.invalid :=
  ⟨rfl, by decide⟩

/-- C1 (code bug): on `BuddyMemoryManager(1024, 64)`, the two `allocate(512)`
calls both return the pointer at offset 512 (the dangling `Block*` in
`allocate` is read after `vector::erase` shifted the elements, so the
*sibling* block is registered and returned, and the block at offset 0 is
leaked), the registry holds a single entry, so "deallocating both handles"
in either order is deallocating offset 512 twice; the final free lists hold
one 512-byte block at offset 512 — not one 1024-byte block at offset 0. -/
theorem coalescing_roundtrip_fails :
    (allocate (mkBuddy 1024 64) 512).1 = .ok 512 ∧
      (allocate (allocate (mkBuddy 1024 64) 512).2 512).1 = .ok 512 ∧
      (allocate (allocate (mkBuddy 1024 64) 512).2 512).2.allocatedBlocks = [(512, 512)] ∧
      (deallocate (deallocate (allocate (allocate (mkBuddy 1024 64) 512).2 512).2
          (some 512)).2 (some 512)).2.freeLists
        = [[], [], [], [⟨512, 512, true⟩], []] ∧
      (deallocate (deallocate (allocate (allocate (mkBuddy 1024 64) 512).2 512).2
          (some 512)).2 (some 512)).2.freeLists
        ≠ [[], [], [], [], [⟨0, 1024, true⟩]] := by
  decide

/-- The buddy predicate exactly as the spec words it: same-class free blocks
`b1`, `b2` of size `s` are buddies iff `(b1.offset XOR b2.offset) == s` and
`min(b1.offset, b2.offset) mod (2*s) == 0`.  Stated for comparison with the
condition `mergeBuddies` actually checks. -/
def specBuddies (s : Nat) (b1 b2 : Block) : Prop :=
  (b1.offset ^^^ b2.offset) = s ∧ (min b1.offset b2.offset) % (2 * s) = 0

/-- C2 (code bug): the blocks at offsets 64 and 0 (size 64) satisfy the
buddy predicate, yet when they appear in the free list in that order the
coalescer does not merge them — `mergeBuddies` tests
`(b1.offset & blockSize) == 0` on the *earlier listed* block instead of the
lower offset, so merging depends on list order: the same pair listed as
`[0, 64]` is merged into `{0, 128}`.  (Offsets 64 and 192 are indeed not
buddies, as the claim also states.) -/
theorem buddy_merge_order_dependent :
    specBuddies 64 ⟨64, 64, true⟩ ⟨0, 64, true⟩ ∧
      mergeBuddies 64 [[⟨64, 64, true⟩, ⟨0, 64, true⟩], []]
        = (false, [[⟨64, 64, true⟩, ⟨0, 64, true⟩], []]) ∧
      mergeBuddies 64 [[⟨0, 64, true⟩, ⟨64, 64, true⟩], []]
        = (true, [[], [⟨0, 128, true⟩]]) ∧
      ¬ specBuddies 64 ⟨64, 64, true⟩ ⟨192, 64, true⟩ := by
  constructor
  · exact ⟨by decide, by decide⟩
  · refine ⟨by decide, by decide, ?_⟩
    intro hsb
    exact absurd hsb.1 (by decide)

/-- C4 (code bug): conservation fails on a reachable state.  After two
`allocate(512)` calls on `BuddyMemoryManager(1024, 64)` the second call
re-registers the same pointer (overwriting the registry entry), so the free
lists sum to 0, the registry sums to 512, and
`Σ free + Σ allocated = 512 ≠ 1024 = totalSize`. -/
theorem conservation_fails :
    freeSum (allocate (allocate (mkBuddy 1024 64) 512).2 512).2.freeLists
        + regSum (allocate (allocate (mkBuddy 1024 64) 512).2 512).2.allocatedBlocks
      = 512 ∧
      (allocate (allocate (mkBuddy 1024 64) 512).2 512).2.totalSize = 1024 ∧
      (512 : Nat) ≠ 1024 := by
  decide

/-- C5 (code bug): on `BuddyMemoryManager(1024, 64)`, `allocate(100)` does
succeed with a 128-byte registration and the subsequent `allocate(900)` does
fail with OutOfMemory, but the returned handle is the block at offset 128,
not offset 0 (and the 128-byte block at offset 128 simultaneously remains
in the class-1 free list). -/
theorem fragmentation_first_alloc_wrong_offset :
    (allocate (mkBuddy 1024 64) 100).1 = .ok 128 ∧
      (allocate (mkBuddy 1024 64) 100).1 ≠ .ok 0 ∧
      getAllocatedSize (allocate (mkBuddy 1024 64) 100).2 128 = 128 ∧
      (allocate (mkBuddy 1024 64) 100).2.freeLists.getD 1 []
        = [⟨128, 128, true⟩] ∧
      (allocate (allocate (mkBuddy 1024 64) 100).2 900).1 = .outOfMemory := by
  decide

/-- C3 counterexample: construction with degenerate parameters does not fail.
`BuddyMemoryManager(0, 64)` constructs a manager (totalSize rounds to 1)
that even serves `allocate(1)`, and `BuddyMemoryManager(64, 128)` constructs
a manager with `minBlockSize = 128 > totalSize = 64`; `minSize = 0` rounds
to `minBlockSize = 1`.  No constructor path rejects its arguments. -/
theorem construction_accepts_degenerate_params :
    mkBuddy 0 64 = ⟨1, 64, [[⟨0, 1, true⟩]], []⟩ ∧
      (allocate (mkBuddy 0 64) 1).1 = .ok 0 ∧
      (mkBuddy 64 128).totalSize = 64 ∧
      (mkBuddy 64 128).minBlockSize = 128 ∧
      (mkBuddy 1024 0).minBlockSize = 1 := by
  decide

/-- C3 amended: the constructor performs no validation.  For every capacity
and minimum size it returns a manager whose `totalSize` and `minBlockSize`
are the power-of-two round-ups of its arguments (both at least 1, since
`roundUpToNextPowerOf2 0 = 1`), whose registry is empty, and whose top size
class holds the single free block `{offset 0, size totalSize}` — even when
`minBlockSize > totalSize`. -/
theorem construction_total (cap minS : Nat) :
    (mkBuddy cap minS).totalSize = 2 ^ Nat.clog 2 cap ∧
      (mkBuddy cap minS).minBlockSize = 2 ^ Nat.clog 2 minS ∧
      1 ≤ (mkBuddy cap minS).totalSize ∧
      1 ≤ (mkBuddy cap minS).minBlockSize ∧
      (mkBuddy cap minS).allocatedBlocks = [] ∧
      (mkBuddy cap minS).freeLists.length
        = log2Ceil ((mkBuddy cap minS).totalSize / (mkBuddy cap minS).minBlockSize) + 1 ∧
      (mkBuddy cap minS).freeLists.getD ((mkBuddy cap minS).freeLists.length - 1) []
        = [⟨0, (mkBuddy cap minS).totalSize, true⟩] := by
  refine ⟨roundUpToNextPowerOf2_eq cap, roundUpToNextPowerOf2_eq minS, ?_, ?_, rfl, ?_, ?_⟩
  · rw [show (mkBuddy cap minS).totalSize = 2 ^ Nat.clog 2 cap from roundUpToNextPowerOf2_eq cap]
    exact Nat.one_le_two_pow
  · rw [show (mkBuddy cap minS).minBlockSize = 2 ^ Nat.clog 2 minS from
      roundUpToNextPowerOf2_eq minS]
    exact Nat.one_le_two_pow
  · show ((List.replicate _ ([] : List Block)).set _ _).length = _
    rw [length_set_eq, List.length_replicate]
    rfl
  · show ((List.replicate _ ([] : List Block)).set _ _).getD
      (((List.replicate _ ([] : List Block)).set _ _).length - 1) [] = _
    rw [length_set_eq, List.length_replicate]
    exact getD_set_self _ _ _ _ (by rw [List.length_replicate]; omega)

/-! ### Arithmetic helpers for the size-class computation -/

theorem two_pow_max (x y : Nat) : max (2 ^ x) (2 ^ y) = (2 : Nat) ^ max x y := by
  rcases le_total x y with h | h
  · rw [Nat.max_eq_right (Nat.pow_le_pow_right (by norm_num) h), Nat.max_eq_right h]
  · rw [Nat.max_eq_left (Nat.pow_le_pow_right (by norm_num) h), Nat.max_eq_left h]

/-- The rounding `((s + m - 1) / m) * m` is at least `s`. -/
theorem le_rounded (s m : Nat) (hm : 1 ≤ m) : s ≤ ((s + m - 1) / m) * m := by
  have h1 : m * ((s + m - 1) / m) + (s + m - 1) % m = s + m - 1 := Nat.div_add_mod _ m
  have h2 : (s + m - 1) % m < m := Nat.mod_lt _ hm
  have h3 : ((s + m - 1) / m) * m = m * ((s + m - 1) / m) := Nat.mul_comm _ _
  omega

/-- The rounding `((s + m - 1) / m) * m` does not pass a multiple of `m`
that bounds `s`. -/
theorem rounded_le (s m T : Nat) (hm : 1 ≤ m) (hd : m ∣ T) (hs : s ≤ T) :
    ((s + m - 1) / m) * m ≤ T := by
  obtain ⟨q, rfl⟩ := hd
  have h1 : (s + m - 1) / m ≤ (m * q + m - 1) / m := Nat.div_le_div_right (by omega)
  have h2 : (m * q + m - 1) / m = q := by
    have he : m * q + m - 1 = m * q + (m - 1) := by omega
    rw [he, Nat.mul_add_div (by omega), Nat.div_eq_of_lt (by omega)]
    omega
  calc ((s + m - 1) / m) * m ≤ q * m := Nat.mul_le_mul_right m (h2 ▸ h1)
    _ = m * q := Nat.mul_comm _ _

theorem mkBuddy_minBlockSize (cap minS : Nat) :
    (mkBuddy cap minS).minBlockSize = 2 ^ Nat.clog 2 minS :=
  roundUpToNextPowerOf2_eq minS

theorem mkBuddy_totalSize (cap minS : Nat) :
    (mkBuddy cap minS).totalSize = 2 ^ Nat.clog 2 cap :=
  roundUpToNextPowerOf2_eq cap

theorem mkBuddy_numClasses (cap minS : Nat)
    (hm : roundUpToNextPowerOf2 minS ≤ roundUpToNextPowerOf2 cap) :
    (mkBuddy cap minS).freeLists.length
      = Nat.clog 2 cap - Nat.clog 2 minS + 1 := by
  have hab : Nat.clog 2 minS ≤ Nat.clog 2 cap := by
    rw [roundUpToNextPowerOf2_eq, roundUpToNextPowerOf2_eq] at hm
    exact (Nat.pow_le_pow_iff_right (by norm_num)).1 hm
  show ((List.replicate (log2Ceil (roundUpToNextPowerOf2 cap / roundUpToNextPowerOf2 minS) + 1)
      ([] : List Block)).set _ _).length = _
  rw [length_set_eq, List.length_replicate, roundUpToNextPowerOf2_eq,
    roundUpToNextPowerOf2_eq, Nat.pow_div hab (by norm_num), log2Ceil_eq_clog,
    Nat.clog_pow _ _ (by norm_num)]

/-- The block size `allocate` computes is `2 ^ max (clog 2 rounded) (clog 2 minS)`
when `minBlockSize` is the power of two `2 ^ clog 2 minS`. -/
theorem blockSizeFor_eq (minS sz : Nat) :
    blockSizeFor (2 ^ Nat.clog 2 minS) sz
      = 2 ^ max (Nat.clog 2 (((sz + 2 ^ Nat.clog 2 minS - 1) / 2 ^ Nat.clog 2 minS)
          * 2 ^ Nat.clog 2 minS)) (Nat.clog 2 minS) := by
  rw [blockSizeFor, roundUpToNextPowerOf2_eq, ← two_pow_max]

theorem getSizeClass_pow (a c : Nat) :
    getSizeClass (2 ^ a) (2 ^ c) = c - a := by
  rw [getSizeClass, log2Ceil_eq_clog, log2Ceil_eq_clog,
    Nat.clog_pow _ _ (by norm_num), Nat.clog_pow _ _ (by norm_num)]

/-- C7: for every `s > 0` on a validly constructed manager, `allocate(s)`
fails with RequestTooLarge if and only if the rounded power-of-two block
size exceeds `totalSize` (equivalently, `sizeClass ≥ numClasses`); in
particular a request whose rounded size equals `totalSize` is not rejected
as too large. -/
theorem requestTooLarge_iff (cap minS sz : Nat)
    (hm : roundUpToNextPowerOf2 minS ≤ roundUpToNextPowerOf2 cap) (hs : 1 ≤ sz) :
    (allocate (mkBuddy cap minS) sz).1 = .tooLarge ↔
      (mkBuddy cap minS).totalSize
        < blockSizeFor (mkBuddy cap minS).minBlockSize sz := by
  have hab : Nat.clog 2 minS ≤ Nat.clog 2 cap := by
    rw [roundUpToNextPowerOf2_eq, roundUpToNextPowerOf2_eq] at hm
    exact (Nat.pow_le_pow_iff_right (by norm_num)).1 hm
  rw [allocate, if_neg (by omega : ¬ sz = 0)]
  simp only [mkBuddy_minBlockSize, mkBuddy_totalSize,
    mkBuddy_numClasses cap minS hm, blockSizeFor_eq, getSizeClass_pow]
  set a := Nat.clog 2 minS with ha
  set b := Nat.clog 2 cap with hb
  set C := max (Nat.clog 2 (((sz + 2 ^ a - 1) / 2 ^ a) * 2 ^ a)) a with hC
  have haC : a ≤ C := le_max_right _ _
  by_cases hbig : b - a + 1 ≤ C - a
  · rw [if_pos hbig]
    have hlt : (2 : Nat) ^ b < 2 ^ C := Nat.pow_lt_pow_right (by norm_num) (by omega)
    exact ⟨fun _ => hlt, fun _ => rfl⟩
  · rw [if_neg hbig]
    have hle : (2 : Nat) ^ C ≤ 2 ^ b := Nat.pow_le_pow_right (by norm_num) (by omega)
    constructor
    · intro hres
      rcases ho : (findBlock (b - a + 1) (mkBuddy cap minS).freeLists (C - a)).1 with _ | i
      · rw [ho] at hres
        simp at hres
      · rw [ho] at hres
        simp [allocFinish] at hres
    · intro hres
      omega

/-- C7 witness: on `BuddyMemoryManager(1024, 64)`, `allocate(2048)` is
rejected as too large (rounded size 2048 > 1024), by the iff. -/
theorem requestTooLarge_iff_witness :
    ((allocate (mkBuddy 1024 64) 2048).1 = .tooLarge ↔
      (mkBuddy 1024 64).totalSize
        < blockSizeFor (mkBuddy 1024 64).minBlockSize 2048) ∧
      (allocate (mkBuddy 1024 64) 2048).1 = .tooLarge :=
  ⟨requestTooLarge_iff 1024 64 2048 (by decide) (by decide), by decide⟩

/-! ### The state of a freshly constructed manager, and the split descent -/

/-- The free lists of a freshly constructed manager with
`minBlockSize = 2^a` and `totalSize = 2^b` (`a ≤ b`): `b - a + 1` classes,
all empty except the top one, which holds the whole arena. -/
def freshLists (a b : Nat) : List (List Block) :=
  (List.replicate (b - a + 1) ([] : List Block)).set (b - a) [⟨0, 2 ^ b, true⟩]

theorem freshLists_length (a b : Nat) : (freshLists a b).length = b - a + 1 := by
  rw [freshLists, length_set_eq, List.length_replicate]

theorem freshLists_getD (a b k : Nat) :
    (freshLists a b).getD k [] = if k = b - a then [⟨0, 2 ^ b, true⟩] else [] := by
  rw [freshLists]
  by_cases hk : k = b - a
  · rw [if_pos hk, hk]
    exact getD_set_self _ _ _ _ (by rw [List.length_replicate]; omega)
  · rw [if_neg hk, getD_set_ne _ _ _ _ _ (fun he => hk he.symm), getD_replicate]
    split <;> rfl

theorem mkBuddy_freeLists (cap minS : Nat)
    (hm : roundUpToNextPowerOf2 minS ≤ roundUpToNextPowerOf2 cap) :
    (mkBuddy cap minS).freeLists = freshLists (Nat.clog 2 minS) (Nat.clog 2 cap) := by
  have hab : Nat.clog 2 minS ≤ Nat.clog 2 cap := by
    rw [roundUpToNextPowerOf2_eq, roundUpToNextPowerOf2_eq] at hm
    exact (Nat.pow_le_pow_iff_right (by norm_num)).1 hm
  show (List.replicate (log2Ceil (roundUpToNextPowerOf2 cap / roundUpToNextPowerOf2 minS) + 1)
      ([] : List Block)).set
      (log2Ceil (roundUpToNextPowerOf2 cap / roundUpToNextPowerOf2 minS) + 1 - 1)
      [⟨0, roundUpToNextPowerOf2 cap, true⟩] = _
  rw [roundUpToNextPowerOf2_eq, roundUpToNextPowerOf2_eq,
    Nat.pow_div hab (by norm_num), log2Ceil_eq_clog, Nat.clog_pow _ _ (by norm_num),
    freshLists, Nat.add_sub_cancel]

/-- Descent of `findBlock` through the fresh free lists: starting from the
single top-class block, the recursive split chain always succeeds, the
returned index points into class `sc`, and every block recorded at class
`sc` afterwards has the class block size `2^(a+sc)` (all classes below `sc`
stay empty). -/
theorem findBlock_fresh (a b : Nat) (hab : a ≤ b) :
    ∀ fuel sc, sc ≤ b - a → b - a - sc < fuel →
    ∃ i L, findBlock fuel (freshLists a b) sc = (some i, L) ∧
      L.length = b - a + 1 ∧
      i < (L.getD sc []).length ∧
      (∀ blk ∈ L.getD sc [], blk.size = 2 ^ (a + sc)) ∧
      (∀ k, k < sc → L.getD k [] = []) := by
  intro fuel
  induction fuel with
  | zero => intro sc hsc hf; omega
  | succ fuel ih =>
    intro sc hsc hf
    by_cases hend : sc = b - a
    · subst hend
      have hg : ¬((freshLists a b).length ≤ b - a ∨ (freshLists a b).getD (b - a) [] = []) := by
        rw [freshLists_length, freshLists_getD, if_pos rfl]
        simp
      refine ⟨0, freshLists a b, ?_, freshLists_length a b, ?_, ?_, ?_⟩
      · rw [findBlock, if_neg hg]
      · rw [freshLists_getD, if_pos rfl]
        simp
      · rw [freshLists_getD, if_pos rfl]
        intro blk hblk
        rw [List.mem_singleton] at hblk
        subst hblk
        show 2 ^ b = 2 ^ (a + (b - a))
        congr 1
        omega
      · intro k hk
        rw [freshLists_getD, if_neg (by omega)]
    · have hlt : sc < b - a := lt_of_le_of_ne hsc hend
      obtain ⟨i', L', heq, hlen, hidx, hsize, hlow⟩ := ih (sc + 1) (by omega) (by omega)
      have hg : (freshLists a b).length ≤ sc ∨ (freshLists a b).getD sc [] = [] := by
        right
        rw [freshLists_getD, if_neg (by omega)]
      have hg2 : ¬ (freshLists a b).length ≤ sc + 1 := by
        rw [freshLists_length]
        omega
      rw [findBlock, if_pos hg, if_neg hg2, heq]
      have hLlen : ∀ (x : List Block), (L'.set (sc + 1) x).length = b - a + 1 := by
        intro x
        rw [length_set_eq, hlen]
      have hcur :
          (L'.set (sc + 1) (eraseFirstOffset (L'.getD (sc + 1) [])
              ((L'.getD (sc + 1) []).getD i' dummyBlock).offset)).getD sc [] = [] := by
        rw [getD_set_ne _ _ _ _ _ (by omega)]
        exact hlow sc (by omega)
      have hlarger : ((L'.getD (sc + 1) []).getD i' dummyBlock).size = 2 ^ (a + (sc + 1)) :=
        hsize _ (getD_mem _ _ _ hidx)
      have hhalf : ((L'.getD (sc + 1) []).getD i' dummyBlock).size / 2 = 2 ^ (a + sc) := by
        rw [hlarger]
        have hp : (2 : Nat) ^ (a + (sc + 1)) = 2 ^ (a + sc) * 2 := by
          rw [pow_add, pow_add, pow_succ]
          ring
        rw [hp, Nat.mul_div_cancel _ (by norm_num)]
      refine ⟨_, _, rfl, ?_, ?_, ?_, ?_⟩
      · rw [length_set_eq, hLlen]
      · rw [getD_set_self _ _ _ _ (by rw [hLlen]; omega), hcur]
        simp
      · rw [getD_set_self _ _ _ _ (by rw [hLlen]; omega), hcur]
        intro blk hblk
        simp only [List.nil_append, List.mem_cons, List.not_mem_nil, or_false] at hblk
        rcases hblk with hblk | hblk <;> (subst hblk; exact hhalf)
      · intro k hk
        rw [getD_set_ne _ _ _ _ _ (by omega), getD_set_ne _ _ _ _ _ (by omega)]
        exact hlow k (by omega)

/-- The success tail of `allocate`: if the index returned by `findBlock` is
in range and every block recorded at the target class has size `S`, then
the handle is registered with size `S` — regardless of the element shift
performed by the erase, because the post-erase slot (or the stale last
slot) again holds a block of the same class. -/
theorem allocFinish_size (st : BuddyState) (sc i : Nat) (fl' : List (List Block)) (S : Nat)
    (hidx : i < (fl'.getD sc []).length)
    (hsize : ∀ blk ∈ fl'.getD sc [], blk.size = S) :
    ∃ p, (allocFinish st sc i fl').1 = .ok p ∧
      (allocFinish st sc i fl').2.allocatedBlocks
        = mapInsert st.allocatedBlocks p S := by
  have hmarked : ∀ blk ∈ (fl'.getD sc []).set i
      { (fl'.getD sc []).getD i dummyBlock with free := false }, blk.size = S := by
    intro blk hblk
    rcases List.mem_or_eq_of_mem_set hblk with hb | hb
    · exact hsize _ hb
    · subst hb
      show ((fl'.getD sc []).getD i dummyBlock).size = S
      exact hsize _ (getD_mem _ _ _ hidx)
  have hmne : (fl'.getD sc []).set i
      { (fl'.getD sc []).getD i dummyBlock with free := false } ≠ [] := by
    intro hc
    have h0 : ((fl'.getD sc []).set i
        { (fl'.getD sc []).getD i dummyBlock with free := false }).length = 0 := by
      rw [hc]
      rfl
    rw [length_set_eq] at h0
    omega
  rw [allocFinish]
  simp only
  set marked := (fl'.getD sc []).set i
    { (fl'.getD sc []).getD i dummyBlock with free := false } with hmdef
  set target := (marked.getD i dummyBlock).offset with htdef
  by_cases hre : i < (eraseFirstOffset marked target).length
  · rw [if_pos hre]
    refine ⟨_, rfl, ?_⟩
    have hmem : (eraseFirstOffset marked target).getD i dummyBlock ∈ marked :=
      mem_of_mem_eraseFirstOffset _ _ _ (getD_mem _ _ _ hre)
    rw [hmarked _ hmem]
  · rw [if_neg hre]
    refine ⟨_, rfl, ?_⟩
    have hmem : marked.getLastD dummyBlock ∈ marked := getLastD_mem _ _ hmne
    rw [hmarked _ hmem]

theorem mapFind_mapInsert_nil (p S : Nat) : mapFind (mapInsert [] p S) p = some S := by
  simp [mapFind, mapInsert, List.find?]

/-- C6: on a freshly constructed manager with rounded minimum block size not
exceeding the rounded capacity, for every request size `s` in
`[1, capacity]`, `allocate(s)` returns a non-null handle whose registered
size (`getAllocatedSize`) is a power of two, a multiple of `minBlockSize`,
and at least `s`. -/
theorem allocate_size_rounding (cap minS sz : Nat) (h1 : 1 ≤ sz) (h2 : sz ≤ cap)
    (hm : roundUpToNextPowerOf2 minS ≤ roundUpToNextPowerOf2 cap) :
    ∃ p,
      (allocate (mkBuddy cap minS) sz).1 = .ok p ∧
      (∃ k, getAllocatedSize (allocate (mkBuddy cap minS) sz).2 p = 2 ^ k) ∧
      (mkBuddy cap minS).minBlockSize ∣ getAllocatedSize (allocate (mkBuddy cap minS) sz).2 p ∧
      sz ≤ getAllocatedSize (allocate (mkBuddy cap minS) sz).2 p := by
  have hab : Nat.clog 2 minS ≤ Nat.clog 2 cap := by
    rw [roundUpToNextPowerOf2_eq, roundUpToNextPowerOf2_eq] at hm
    exact (Nat.pow_le_pow_iff_right (by norm_num)).1 hm
  rw [allocate, if_neg (by omega : ¬ sz = 0)]
  simp only [mkBuddy_minBlockSize, mkBuddy_numClasses cap minS hm,
    mkBuddy_freeLists cap minS hm, freshLists_length, blockSizeFor_eq, getSizeClass_pow]
  set a := Nat.clog 2 minS with hadef
  set b := Nat.clog 2 cap with hbdef
  set R := ((sz + 2 ^ a - 1) / 2 ^ a) * 2 ^ a with hRdef
  set C := max (Nat.clog 2 R) a with hCdef
  have haC : a ≤ C := le_max_right _ _
  have hRs : sz ≤ R := le_rounded sz (2 ^ a) Nat.one_le_two_pow
  have hRT : R ≤ 2 ^ b := by
    refine rounded_le sz (2 ^ a) (2 ^ b) Nat.one_le_two_pow ⟨2 ^ (b - a), ?_⟩ ?_
    · rw [← pow_add]
      congr 1
      omega
    · exact le_trans h2 (Nat.le_pow_clog (by norm_num) cap)
  have hc'b : Nat.clog 2 R ≤ b := by
    have := Nat.clog_mono_right 2 hRT
    rwa [Nat.clog_pow _ _ (by norm_num)] at this
  have hCb : C ≤ b := max_le hc'b hab
  rw [if_neg (by omega)]
  obtain ⟨i, L, heq, hlen, hidx, hsize, hlow⟩ :=
    findBlock_fresh a b hab (b - a + 1) (C - a) (by omega) (by omega)
  rw [heq]
  simp only
  have hCa : a + (C - a) = C := by omega
  obtain ⟨p, hfst, hreg⟩ :=
    allocFinish_size (mkBuddy cap minS) (C - a) i L (2 ^ (a + (C - a))) hidx hsize
  refine ⟨p, hfst, ?_, ?_, ?_⟩
  · refine ⟨C, ?_⟩
    rw [getAllocatedSize, hreg]
    have hempty : (mkBuddy cap minS).allocatedBlocks = [] := rfl
    rw [hempty, mapFind_mapInsert_nil, hCa]
    rfl
  · rw [getAllocatedSize, hreg]
    have hempty : (mkBuddy cap minS).allocatedBlocks = [] := rfl
    rw [hempty, mapFind_mapInsert_nil, hCa]
    show (2 : Nat) ^ a ∣ 2 ^ C
    exact pow_dvd_pow 2 haC
  · rw [getAllocatedSize, hreg]
    have hempty : (mkBuddy cap minS).allocatedBlocks = [] := rfl
    rw [hempty, mapFind_mapInsert_nil, hCa]
    show sz ≤ 2 ^ C
    calc sz ≤ R := hRs
      _ ≤ 2 ^ Nat.clog 2 R := Nat.le_pow_clog (by norm_num) R
      _ ≤ 2 ^ C := Nat.pow_le_pow_right (by norm_num) (le_max_left _ _)

/-- C6 witness: the concrete spec scenario `capacity = 1024`,
`minBlockSize = 64`, `s = 100`. -/
theorem allocate_size_rounding_witness :
    ∃ p,
      (allocate (mkBuddy 1024 64) 100).1 = .ok p ∧
      (∃ k, getAllocatedSize (allocate (mkBuddy 1024 64) 100).2 p = 2 ^ k) ∧
      (mkBuddy 1024 64).minBlockSize ∣ getAllocatedSize (allocate (mkBuddy 1024 64) 100).2 p ∧
      100 ≤ getAllocatedSize (allocate (mkBuddy 1024 64) 100).2 p :=
  allocate_size_rounding 1024 64 100 (by decide) (by decide) (by decide)

end BuddyMemoryManagerModel
